import Mathlib

/-!
# Verification of the nutils sparse coordinate-tensor engine

The repository's sparse engine represents sparse N-dimensional numeric
arrays as flat sequences of (index-tuple, value) records, with operations
`dedup` (chunked sort-merge canonicalization), `prune` (zero filtering),
`add` (concatenation with value-kind promotion), `toarray` / `tomatrix` /
`convert` (materialization) and the decomposition views `indices`,
`values`, `extract`.  The module `nutils/sparse.py` itself is not among
the provided source files (only its test suite `tests/test_sparse.py`
is), so the engine is modelled here from the specification, faithful to
its wording.  Values are represented as exact integers and the value
kind (integer-like versus floating-point-like) as a tag on the sequence;
promotion of an integer-derived value into the floating-point kind is
exact per the spec, so re-encoding acts as the identity on values.
-/

namespace Sparse

/-- A sparse record: an index tuple (one component per axis) and a value. -/
abbrev Rec := List Nat × ℤ

/-- Modelled from the spec: the numeric value kinds, "integer-like" and
"floating-point-like", where floating-point is the more general kind. -/
inductive Kind where
  | int : Kind
  | float : Kind
deriving DecidableEq, Repr

/-- Modelled from the spec: combining arrays of different kinds promotes to
the more general kind; floating-point is more general than integer-like. -/
def Kind.promote : Kind → Kind → Kind
  | .float, _ => .float
  | _, .float => .float
  | .int, .int => .int

/-- A sparse array: a declared shape, a value kind, and a flat sequence of
records.  Shape is a property of the sequence, shared by all records. -/
structure SparseSeq where
  shape : List Nat
  kind : Kind
  data : List Rec
deriving DecidableEq, Repr

/-- `ndim(seq)`: the number of index fields, i.e. the rank. -/
def SparseSeq.ndim (s : SparseSeq) : Nat := s.shape.length

/-- Lexicographic strict order on index tuples, axis 0 most significant. -/
def lexLt : List Nat → List Nat → Bool
  | [], [] => false
  | [], _ :: _ => true
  | _ :: _, [] => false
  | a :: as, b :: bs => if a < b then true else if a = b then lexLt as bs else false

/-- Non-strict record order by index tuple, used as the sorting relation. -/
def leR (a b : Rec) : Prop := lexLt b.1 a.1 = false

instance : DecidableRel leR := fun a b => by unfold leR; infer_instance

/-- The index tuples of a record sequence, in sequence order. -/
def keys (recs : List Rec) : List (List Nat) := recs.map Prod.fst

/-- The total value contributed to index tuple `t` by a record sequence:
the sum of the values of all records whose index tuple is `t`. -/
def total (recs : List Rec) (t : List Nat) : ℤ :=
  ((recs.filter fun r => r.1 = t).map Prod.snd).sum

/-- Modelled from the spec: within a sorted chunk, merge adjacent records
with equal index tuples by summing their values into a single record;
zero-valued sums are retained, not dropped. -/
def collapse : List Rec → List Rec
  | [] => []
  | r :: rest =>
    match collapse rest with
    | [] => [r]
    | s :: tail => if r.1 = s.1 then (r.1, r.2 + s.2) :: tail else r :: s :: tail

/-- Fuel-driven body of the linear merge; with fuel at least the combined
length it computes the full merge. -/
def merge2F : Nat → List Rec → List Rec → List Rec
  | 0, xs, ys => xs ++ ys
  | _ + 1, [], ys => ys
  | _ + 1, x :: xs, [] => x :: xs
  | fuel + 1, x :: xs, y :: ys =>
    if lexLt x.1 y.1 then x :: merge2F fuel xs (y :: ys)
    else if lexLt y.1 x.1 then y :: merge2F fuel (x :: xs) ys
    else (x.1, x.2 + y.2) :: merge2F fuel xs ys

/-- Modelled from the spec: linear merge of two sorted deduplicated chunks
that, on encountering equal keys across the two chunks, sums the two
values into one record. -/
def merge2 (xs ys : List Rec) : List Rec := merge2F (xs.length + ys.length) xs ys

/-- Fuel-driven chunk partition; with fuel at least the list length and a
positive chunk bound it yields the contiguous chunks of size `n`. -/
def chunksF : Nat → Nat → List Rec → List (List Rec)
  | 0, _, _ => []
  | _ + 1, _, [] => []
  | fuel + 1, n, l => l.take n :: chunksF fuel n (l.drop n)

/-- Modelled from the spec: partition the input into contiguous chunks
bounded by the process-wide `chunksize` (modelled as a record-count
bound, which the spec allows); `chunksize` must be positive. -/
def chunks (n : Nat) (l : List Rec) : List (List Rec) := chunksF l.length n l

/-- Modelled from the spec: sort one chunk by the index-tuple key
(lexicographic ascending, axis 0 most significant) with a stable sort,
then merge adjacent equal keys by summing. -/
def dedupChunk (c : List Rec) : List Rec := collapse (List.insertionSort leR c)

/-- Modelled from the spec: iteratively merge the sorted deduplicated
chunks pairwise until one remains. -/
def mergeAll (ls : List (List Rec)) : List Rec := ls.foldl merge2 []

/-- Modelled from the spec (`nutils.sparse.dedup`, absent from the provided
sources): the chunked sort-merge canonicalization — partition into chunks
of at most `cs` records, sort and locally merge each chunk, then merge
all chunks.  `cs` is the process-wide `chunksize`, which must be
positive (a non-positive chunksize is a fatal configuration error). -/
def dedup (cs : Nat) (x : List Rec) : List Rec :=
  mergeAll ((chunks cs x).map dedupChunk)

/-- Modelled from the spec (`nutils.sparse.prune`, absent from the provided
sources): chunk-wise removal of the records whose value is exactly zero;
chunking must not reorder survivors, so the chunked filter is the
concatenation of per-chunk filtered slices. -/
def prune (cs : Nat) (x : List Rec) : List Rec :=
  ((chunks cs x).map (List.filter fun r => r.2 ≠ 0)).flatten

/-- Modelled from the spec (`nutils.sparse.add`): all inputs must share an
identical declared shape, otherwise a shape-mismatch error is fatal to
the call; on success the result is the literal concatenation of all
input records with the value kind promoted to the most general kind. -/
def add (seqs : List SparseSeq) : Except String SparseSeq :=
  match seqs with
  | [] => .error "add: no sequences"
  | s0 :: rest =>
    if rest.all fun s => s.shape = s0.shape then
      .ok { shape := s0.shape
            kind := (rest.map SparseSeq.kind).foldl Kind.promote s0.kind
            data := ((s0 :: rest).map SparseSeq.data).flatten }
    else .error "add: shape mismatch"

/-- Modelled from the spec (`nutils.sparse.toarray`): the dense cell
function — every cell initialized to the additive identity, then every
record's value added into the cell addressed by its index tuple. -/
def scatter (recs : List Rec) : List Nat → ℤ :=
  recs.foldl (fun A r => fun t => if t = r.1 then A t + r.2 else A t) (fun _ => 0)

/-- The dense array of a sparse sequence, as its cell function. -/
def toarray (s : SparseSeq) : List Nat → ℤ := scatter s.data

/-- The dense rank-1 materialization as a list of length `shape[0]`. -/
def toList1 (s : SparseSeq) : List ℤ :=
  (List.range (s.shape.headD 0)).map fun i => toarray s [i]

/-- The per-axis index array for axis `k`, in sequence order. -/
def indicesAxis (s : SparseSeq) (k : Nat) : List Nat :=
  s.data.map fun r => r.1.getD k 0

/-- Modelled from the spec (`nutils.sparse.extract`): the bundle of
per-axis index arrays, the value array, and the declared shape, all in
the sequence's current order with no sort or dedup. -/
def extract (s : SparseSeq) : List (List Nat) × List ℤ × List Nat :=
  ((List.range s.ndim).map (indicesAxis s), s.data.map Prod.snd, s.shape)

/-- Modelled from the spec: the opaque backend matrix handle — the backend
consumes per-axis index arrays, a value array and a shape, and supports
export to dense. -/
structure MatHandle where
  rows : List Nat
  cols : List Nat
  vals : List ℤ
  nrows : Nat
  ncols : Nat
deriving DecidableEq, Repr

/-- Modelled from the spec: the backend's export-to-dense accumulates
duplicate index pairs itself, mirroring `toarray`'s accumulation. -/
def MatHandle.exportDense (m : MatHandle) (i j : Nat) : ℤ :=
  ((((m.rows.zip m.cols).zip m.vals).filter fun p => p.1 = (i, j)).map Prod.snd).sum

/-- Modelled from the spec (`nutils.sparse.tomatrix`): hand the
`(indices, values, shape)` obtained via `extract` — not deduplicated —
to the backend matrix collaborator and return its handle. -/
def tomatrix (s : SparseSeq) : MatHandle :=
  let e := extract s
  { rows := e.1.getD 0 []
    cols := e.1.getD 1 []
    vals := e.2.1
    nrows := e.2.2.getD 0 0
    ncols := e.2.2.getD 1 0 }

/-- The result of `convert`: a dense array for rank at most 1, an opaque
backend matrix for rank 2. -/
inductive Converted where
  | array (cells : List Nat → ℤ)
  | matrix (handle : MatHandle)

/-- Modelled from the spec (`nutils.sparse.convert`): dispatch to
`toarray` for rank at most 1, to `tomatrix` for rank 2, and fail with an
explicit error for rank greater than 2. -/
def convert (s : SparseSeq) : Except String Converted :=
  if s.ndim ≤ 1 then .ok (.array (toarray s))
  else if s.ndim = 2 then .ok (.matrix (tomatrix s))
  else .error "convert: rank unsupported"

/-- The rank-1 test fixture of `tests/test_sparse.py` (`vector.setUp`). -/
def testVec : SparseSeq :=
  { shape := [5]
    kind := .int
    data := [([4], 10), ([4], 20), ([3], 1), ([2], 30), ([1], 40),
             ([2], 50), ([3], -1), ([0], 0), ([0], 60)] }

/-- The rank-2 test fixture of `tests/test_sparse.py` (`matrix.setUp`). -/
def testMat : SparseSeq :=
  { shape := [4, 5]
    kind := .int
    data := [([2, 4], 10), ([3, 4], 20), ([2, 3], 1), ([1, 2], 30),
             ([0, 1], 40), ([1, 2], 50), ([2, 3], -1), ([3, 0], 0),
             ([2, 0], 60)] }

/-- The second rank-1 operand of `vector.test_add_int`. -/
def otherVecInt : SparseSeq :=
  { shape := [5], kind := .int, data := [([1], -40), ([2], 70)] }

/-- A floating-point-kind rank-1 sequence of the same shape as `testVec`,
exercising kind promotion as in `vector.test_add_float`. -/
def otherVecFloat : SparseSeq :=
  { shape := [5], kind := .float, data := [([1], -40), ([2], 1)] }

/-- A rank-3 sequence, exercising the unsupported-rank branch of
`convert`. -/
def testCube : SparseSeq :=
  { shape := [2, 2, 2], kind := .int, data := [([0, 0, 0], 1)] }

/-- Strict ascending sortedness by index tuple, axis 0 most significant. -/
def StrictSorted (recs : List Rec) : Prop :=
  List.Pairwise (fun a b : Rec => lexLt a.1 b.1 = true) recs

theorem lexLt_irrefl (t : List Nat) : lexLt t t = false := by
  induction t with
  | nil => rfl
  | cons a as ih => simp [lexLt, ih]

theorem lexLt_trans : ∀ {a b c : List Nat},
    lexLt a b = true → lexLt b c = true → lexLt a c = true
  | [], [], [], h, _ => by simp [lexLt] at h
  | [], [], _ :: _, _, _ => rfl
  | [], _ :: _, [], _, h => by simp [lexLt] at h
  | [], _ :: _, _ :: _, _, _ => rfl
  | _ :: _, [], _, h, _ => by simp [lexLt] at h
  | _ :: _, _ :: _, [], _, h => by simp [lexLt] at h
  | a :: as, b :: bs, c :: cs, h₁, h₂ => by
    simp only [lexLt] at h₁ h₂ ⊢
    by_cases hab : a < b
    · by_cases hbc : b < c
      · simp [show a < c by omega]
      · have hbc' : b = c := by by_contra hne; simp [hbc, hne] at h₂
        simp [show a < c by omega]
    · have hab' : a = b := by by_contra hne; simp [hab, hne] at h₁
      subst hab'
      by_cases hbc : a < c
      · simp [hbc]
      · have hbc' : a = c := by by_contra hne; simp [hbc, hne] at h₂
        subst hbc'
        simp [hab] at h₁ h₂ ⊢
        exact lexLt_trans h₁ h₂

theorem lexLt_connex : ∀ {a b : List Nat},
    lexLt a b = false → lexLt b a = false → a = b
  | [], [], _, _ => rfl
  | [], _ :: _, h, _ => by simp [lexLt] at h
  | _ :: _, [], _, h => by simp [lexLt] at h
  | a :: as, b :: bs, h₁, h₂ => by
    simp only [lexLt] at h₁ h₂
    have hab : ¬ a < b := by intro h; simp [h] at h₁
    have hba : ¬ b < a := by intro h; simp [h] at h₂
    have he : a = b := by omega
    subst he
    simp at h₁ h₂
    rw [lexLt_connex h₁ h₂]

theorem lexLt_asymm {a b : List Nat} (h : lexLt a b = true) : lexLt b a = false := by
  by_contra hc
  have hba : lexLt b a = true := by revert hc; cases lexLt b a <;> simp
  have := lexLt_trans h hba
  rw [lexLt_irrefl] at this
  exact absurd this (by simp)

theorem lexLt_of_ne_of_not_gt {a b : List Nat} (hne : a ≠ b)
    (h : lexLt b a = false) : lexLt a b = true := by
  by_contra hc
  have hab : lexLt a b = false := by revert hc; cases lexLt a b <;> simp
  exact hne (lexLt_connex hab h)

instance : IsTotal Rec leR :=
  ⟨fun a b => by
    unfold leR
    by_cases h : lexLt b.1 a.1 = false
    · exact Or.inl h
    · refine Or.inr (lexLt_asymm ?_)
      revert h; cases lexLt b.1 a.1 <;> simp⟩

instance : IsTrans Rec leR :=
  ⟨fun a b c hab hbc => by
    unfold leR at *
    by_contra hc
    have hca : lexLt c.1 a.1 = true := by revert hc; cases lexLt c.1 a.1 <;> simp
    rcases eq_or_ne a.1 b.1 with he | hne
    · rw [he] at hca; rw [hca] at hbc; exact absurd hbc (by simp)
    · have hab' : lexLt a.1 b.1 = true := lexLt_of_ne_of_not_gt hne hab
      have := lexLt_trans hca hab'
      rw [this] at hbc; exact absurd hbc (by simp)⟩

theorem total_nil (t : List Nat) : total [] t = 0 := rfl

theorem total_cons (r : Rec) (l : List Rec) (t : List Nat) :
    total (r :: l) t = (if r.1 = t then r.2 else 0) + total l t := by
  unfold total
  by_cases h : r.1 = t <;> simp [h, List.filter_cons]

theorem total_append (l₁ l₂ : List Rec) (t : List Nat) :
    total (l₁ ++ l₂) t = total l₁ t + total l₂ t := by
  unfold total
  simp [List.filter_append]

theorem mem_keys {t : List Nat} {recs : List Rec} :
    t ∈ keys recs ↔ ∃ r ∈ recs, r.1 = t := by
  unfold keys
  exact List.mem_map

theorem total_eq_zero_of_not_mem {t : List Nat} {recs : List Rec}
    (h : t ∉ keys recs) : total recs t = 0 := by
  induction recs with
  | nil => rfl
  | cons r l ih =>
    rw [total_cons]
    have h1 : r.1 ≠ t := fun he => h (by simp [keys, he])
    have h2 : t ∉ keys l := fun hm => h (by simp [keys] at hm ⊢; tauto)
    simp [h1, ih h2]

theorem total_perm {l₁ l₂ : List Rec} (h : l₁.Perm l₂) (t : List Nat) :
    total l₁ t = total l₂ t := by
  unfold total
  exact ((h.filter _).map _).sum_eq

theorem keys_perm_mem {l₁ l₂ : List Rec} (h : l₁.Perm l₂) (t : List Nat) :
    t ∈ keys l₁ ↔ t ∈ keys l₂ := by
  rw [mem_keys, mem_keys]
  constructor <;> rintro ⟨r, hr, he⟩
  · exact ⟨r, h.mem_iff.mp hr, he⟩
  · exact ⟨r, h.mem_iff.mpr hr, he⟩

theorem keys_cons (r : Rec) (l : List Rec) : keys (r :: l) = r.1 :: keys l := rfl

theorem collapse_eq_nil : ∀ {l : List Rec}, collapse l = [] → l = []
  | [], _ => rfl
  | r :: rest, h => by
    rw [collapse] at h
    cases hc : collapse rest with
    | nil => rw [hc] at h; simp at h
    | cons s tail => rw [hc] at h; dsimp only at h; split_ifs at h

theorem mem_keys_collapse {t : List Nat} : ∀ {l : List Rec},
    t ∈ keys (collapse l) ↔ t ∈ keys l := by
  intro l
  induction l with
  | nil => simp [collapse]
  | cons r rest ih =>
    rw [collapse]
    cases hc : collapse rest with
    | nil =>
      have hre : rest = [] := collapse_eq_nil hc
      subst hre
      rfl
    | cons s tail =>
      rw [hc] at ih
      dsimp only
      split_ifs with he
      · simp only [keys_cons, List.mem_cons] at ih ⊢
        rw [he]
        tauto
      · simp only [keys_cons, List.mem_cons] at ih ⊢
        tauto

theorem total_collapse {t : List Nat} : ∀ {l : List Rec},
    total (collapse l) t = total l t := by
  intro l
  induction l with
  | nil => rfl
  | cons r rest ih =>
    rw [collapse]
    cases hc : collapse rest with
    | nil =>
      have hre : rest = [] := collapse_eq_nil hc
      subst hre
      rfl
    | cons s tail =>
      rw [hc] at ih
      dsimp only
      split_ifs with he
      · rw [total_cons, total_cons, ← ih, total_cons, ← he]
        by_cases ht : r.1 = t
        · simp [ht]; ring
        · simp [ht]
      · rw [total_cons, ih, ← total_cons]

theorem collapse_sorted : ∀ {l : List Rec},
    List.Pairwise leR l → StrictSorted (collapse l) := by
  intro l
  induction l with
  | nil => intro _; exact List.Pairwise.nil
  | cons r rest ih =>
    intro hp
    obtain ⟨hr, hrest⟩ := List.pairwise_cons.mp hp
    have hs := ih hrest
    rw [collapse]
    cases hc : collapse rest with
    | nil => exact List.pairwise_singleton _ _
    | cons s tail =>
      rw [hc] at hs
      dsimp only
      split_ifs with he
      · unfold StrictSorted at hs ⊢
        rw [List.pairwise_cons] at hs ⊢
        refine ⟨fun u hu => ?_, hs.2⟩
        have := hs.1 u hu
        simpa [he] using this
      · unfold StrictSorted at hs ⊢
        rw [List.pairwise_cons]
        refine ⟨?_, hs⟩
        intro u hu
        have humem : u.1 ∈ keys rest := by
          have hm : u.1 ∈ keys (collapse rest) := by
            rw [hc]; exact mem_keys.mpr ⟨u, hu, rfl⟩
          exact mem_keys_collapse.mp hm
        obtain ⟨x, hx, hxe⟩ := mem_keys.mp humem
        have hle : lexLt u.1 r.1 = false := by rw [← hxe]; exact hr x hx
        have hne : r.1 ≠ u.1 := by
          rcases List.mem_cons.mp hu with rfl | hutail
          · exact he
          · intro heq
            have hsu : lexLt s.1 u.1 = true := (List.pairwise_cons.mp hs).1 u hutail
            have hsmem : s.1 ∈ keys rest := mem_keys_collapse.mp
              (by rw [hc]; exact mem_keys.mpr ⟨s, List.mem_cons_self s tail, rfl⟩)
            obtain ⟨y, hy, hye⟩ := mem_keys.mp hsmem
            have hsr : lexLt s.1 r.1 = false := by rw [← hye]; exact hr y hy
            rw [← heq] at hsu
            rw [hsu] at hsr
            exact absurd hsr (by simp)
        exact lexLt_of_ne_of_not_gt hne hle

theorem bool_eq_true_of_ne_false {b : Bool} (h : ¬ b = true) : b = false := by
  cases b <;> simp_all

theorem total_merge2F {t : List Nat} : ∀ (fuel : Nat) (xs ys : List Rec),
    total (merge2F fuel xs ys) t = total xs t + total ys t := by
  intro fuel
  induction fuel with
  | zero => intro xs ys; rw [merge2F, total_append]
  | succ fuel ih =>
    intro xs ys
    match xs, ys with
    | [], ys => simp [merge2F, total_nil]
    | x :: xs, [] => simp [merge2F, total_nil]
    | x :: xs, y :: ys =>
      rw [merge2F]
      split_ifs with h1 h2
      · simp only [total_cons, ih]
        ring
      · simp only [total_cons, ih]
        ring
      · have hxy : x.1 = y.1 :=
          lexLt_connex (bool_eq_true_of_ne_false h1) (bool_eq_true_of_ne_false h2)
        simp only [total_cons, ih, ← hxy]
        by_cases ht : x.1 = t
        · simp [ht]; ring
        · simp [ht]

theorem mem_keys_merge2F {t : List Nat} : ∀ (fuel : Nat) (xs ys : List Rec),
    t ∈ keys (merge2F fuel xs ys) ↔ t ∈ keys xs ∨ t ∈ keys ys := by
  intro fuel
  induction fuel with
  | zero => intro xs ys; rw [merge2F]; unfold keys; simp
  | succ fuel ih =>
    intro xs ys
    match xs, ys with
    | [], ys => simp [merge2F, keys]
    | x :: xs, [] => simp [merge2F, keys]
    | x :: xs, y :: ys =>
      rw [merge2F]
      split_ifs with h1 h2
      · simp only [keys_cons, List.mem_cons, ih]
        tauto
      · simp only [keys_cons, List.mem_cons, ih]
        tauto
      · have hxy : x.1 = y.1 :=
          lexLt_connex (bool_eq_true_of_ne_false h1) (bool_eq_true_of_ne_false h2)
        simp only [keys_cons, List.mem_cons, ih]
        rw [show ((x.1, x.2 + y.2) : Rec).1 = x.1 from rfl, hxy]
        tauto

theorem sorted_merge2F : ∀ (fuel : Nat) (xs ys : List Rec),
    xs.length + ys.length ≤ fuel →
    StrictSorted xs → StrictSorted ys → StrictSorted (merge2F fuel xs ys) := by
  intro fuel
  induction fuel with
  | zero =>
    intro xs ys h hx hy
    have hx0 : xs = [] := List.eq_nil_of_length_eq_zero (by omega)
    have hy0 : ys = [] := List.eq_nil_of_length_eq_zero (by omega)
    subst hx0; subst hy0
    rw [merge2F]
    exact List.Pairwise.nil
  | succ fuel ih =>
    intro xs ys h hx hy
    match xs, ys with
    | [], ys => rw [merge2F]; exact hy
    | x :: xs, [] => rw [merge2F]; exact hx
    | x :: xs, y :: ys =>
      unfold StrictSorted at hx hy
      obtain ⟨hxhead, hxtail⟩ := List.pairwise_cons.mp hx
      obtain ⟨hyhead, hytail⟩ := List.pairwise_cons.mp hy
      rw [merge2F]
      split_ifs with h1 h2
      · unfold StrictSorted
        rw [List.pairwise_cons]
        constructor
        · intro u hu
          have hk : u.1 ∈ keys xs ∨ u.1 ∈ keys (y :: ys) :=
            (mem_keys_merge2F fuel xs (y :: ys)).mp (mem_keys.mpr ⟨u, hu, rfl⟩)
          rcases hk with hk | hk
          · obtain ⟨v, hv, hve⟩ := mem_keys.mp hk
            rw [← hve]; exact hxhead v hv
          · rcases List.mem_cons.mp hk with he | hk2
            · rw [he]; exact h1
            · obtain ⟨v, hv, hve⟩ := mem_keys.mp hk2
              rw [← hve]
              exact lexLt_trans h1 (hyhead v hv)
        · exact ih xs (y :: ys) (by simp at h ⊢; omega) hxtail hy
      · unfold StrictSorted
        rw [List.pairwise_cons]
        constructor
        · intro u hu
          have hk : u.1 ∈ keys (x :: xs) ∨ u.1 ∈ keys ys :=
            (mem_keys_merge2F fuel (x :: xs) ys).mp (mem_keys.mpr ⟨u, hu, rfl⟩)
          rcases hk with hk | hk
          · rcases List.mem_cons.mp hk with he | hk2
            · rw [he]; exact h2
            · obtain ⟨v, hv, hve⟩ := mem_keys.mp hk2
              rw [← hve]
              exact lexLt_trans h2 (hxhead v hv)
          · obtain ⟨v, hv, hve⟩ := mem_keys.mp hk
            rw [← hve]; exact hyhead v hv
        · exact ih (x :: xs) ys (by simp at h ⊢; omega) hx hytail
      · have hxy : x.1 = y.1 :=
          lexLt_connex (bool_eq_true_of_ne_false h1) (bool_eq_true_of_ne_false h2)
        unfold StrictSorted
        rw [List.pairwise_cons]
        constructor
        · intro u hu
          have hk : u.1 ∈ keys xs ∨ u.1 ∈ keys ys :=
            (mem_keys_merge2F fuel xs ys).mp (mem_keys.mpr ⟨u, hu, rfl⟩)
          rw [show ((x.1, x.2 + y.2) : Rec).1 = x.1 from rfl]
          rcases hk with hk | hk
          · obtain ⟨v, hv, hve⟩ := mem_keys.mp hk
            rw [← hve]; exact hxhead v hv
          · obtain ⟨v, hv, hve⟩ := mem_keys.mp hk
            rw [← hve, hxy]; exact hyhead v hv
        · exact ih xs ys (by simp at h ⊢; omega) hxtail hytail

theorem total_merge2 {t : List Nat} (xs ys : List Rec) :
    total (merge2 xs ys) t = total xs t + total ys t :=
  total_merge2F _ xs ys

theorem mem_keys_merge2 {t : List Nat} (xs ys : List Rec) :
    t ∈ keys (merge2 xs ys) ↔ t ∈ keys xs ∨ t ∈ keys ys :=
  mem_keys_merge2F _ xs ys

theorem sorted_merge2 {xs ys : List Rec} (hx : StrictSorted xs)
    (hy : StrictSorted ys) : StrictSorted (merge2 xs ys) :=
  sorted_merge2F _ xs ys (le_refl _) hx hy

theorem chunksF_flatten : ∀ (fuel n : Nat) (l : List Rec), 0 < n →
    l.length ≤ fuel → (chunksF fuel n l).flatten = l := by
  intro fuel
  induction fuel with
  | zero =>
    intro n l _ h
    have : l = [] := List.eq_nil_of_length_eq_zero (by omega)
    subst this
    rfl
  | succ fuel ih =>
    intro n l hn h
    match l with
    | [] => rfl
    | a :: l' =>
      rw [chunksF, List.flatten_cons,
        ih n ((a :: l').drop n) hn (by simp at h ⊢; omega),
        List.take_append_drop]
      simp

theorem chunks_flatten {n : Nat} (hn : 0 < n) (l : List Rec) :
    (chunks n l).flatten = l :=
  chunksF_flatten l.length n l hn (le_refl _)

theorem total_flatten {t : List Nat} : ∀ (ls : List (List Rec)),
    total ls.flatten t = (ls.map fun c => total c t).sum := by
  intro ls
  induction ls with
  | nil => rfl
  | cons c cs ih => rw [List.flatten_cons, total_append, ih, List.map_cons, List.sum_cons]

theorem mem_keys_flatten {t : List Nat} : ∀ (ls : List (List Rec)),
    t ∈ keys ls.flatten ↔ ∃ c ∈ ls, t ∈ keys c := by
  intro ls
  induction ls with
  | nil => simp [keys]
  | cons c cs ih =>
    rw [List.flatten_cons]
    constructor
    · intro hm
      rcases mem_keys.mp hm with ⟨r, hr, hre⟩
      rcases List.mem_append.mp hr with h | h
      · exact ⟨c, List.mem_cons_self c cs, mem_keys.mpr ⟨r, h, hre⟩⟩
      · obtain ⟨d, hd, hm'⟩ := ih.mp (mem_keys.mpr ⟨r, h, hre⟩)
        exact ⟨d, List.mem_cons_of_mem c hd, hm'⟩
    · rintro ⟨d, hd, hm⟩
      rcases List.mem_cons.mp hd with rfl | hd'
      · rcases mem_keys.mp hm with ⟨r, hr, hre⟩
        exact mem_keys.mpr ⟨r, List.mem_append.mpr (Or.inl hr), hre⟩
      · rcases mem_keys.mp (ih.mpr ⟨d, hd', hm⟩) with ⟨r, hr, hre⟩
        exact mem_keys.mpr ⟨r, List.mem_append.mpr (Or.inr hr), hre⟩

theorem dedupChunk_sorted (c : List Rec) : StrictSorted (dedupChunk c) :=
  collapse_sorted (List.sorted_insertionSort leR c)

theorem total_dedupChunk {t : List Nat} (c : List Rec) :
    total (dedupChunk c) t = total c t := by
  unfold dedupChunk
  rw [total_collapse]
  exact total_perm (List.perm_insertionSort leR c) t

theorem mem_keys_dedupChunk {t : List Nat} (c : List Rec) :
    t ∈ keys (dedupChunk c) ↔ t ∈ keys c := by
  unfold dedupChunk
  rw [mem_keys_collapse]
  exact keys_perm_mem (List.perm_insertionSort leR c) t

theorem foldl_merge2_props : ∀ (ls : List (List Rec)) (acc : List Rec),
    StrictSorted acc → (∀ c ∈ ls, StrictSorted c) →
    StrictSorted (ls.foldl merge2 acc) ∧
    (∀ t, total (ls.foldl merge2 acc) t =
      total acc t + (ls.map fun c => total c t).sum) ∧
    (∀ t, t ∈ keys (ls.foldl merge2 acc) ↔
      t ∈ keys acc ∨ ∃ c ∈ ls, t ∈ keys c) := by
  intro ls
  induction ls with
  | nil =>
    intro acc hacc _
    refine ⟨hacc, fun t => by simp, fun t => by simp⟩
  | cons c cs ih =>
    intro acc hacc hall
    have hc : StrictSorted c := hall c (List.mem_cons_self c cs)
    have hrest : ∀ d ∈ cs, StrictSorted d := fun d hd => hall d (List.mem_cons_of_mem c hd)
    obtain ⟨h1, h2, h3⟩ := ih (merge2 acc c) (sorted_merge2 hacc hc) hrest
    refine ⟨h1, fun t => ?_, fun t => ?_⟩
    · rw [List.foldl_cons, h2 t, total_merge2, List.map_cons, List.sum_cons]
      ring
    · rw [List.foldl_cons, h3 t, mem_keys_merge2]
      constructor
      · rintro ((hm | hm) | ⟨d, hd, hm⟩)
        · exact Or.inl hm
        · exact Or.inr ⟨c, List.mem_cons_self c cs, hm⟩
        · exact Or.inr ⟨d, List.mem_cons_of_mem c hd, hm⟩
      · rintro (hm | ⟨d, hd, hm⟩)
        · exact Or.inl (Or.inl hm)
        · rcases List.mem_cons.mp hd with rfl | hd'
          · exact Or.inl (Or.inr hm)
          · exact Or.inr ⟨d, hd', hm⟩

/-- The canonical deduplicated form of `x`: strictly sorted, same set of
index tuples, and the same total value at every index tuple. -/
def Canonical (x r : List Rec) : Prop :=
  StrictSorted r ∧ (∀ t, t ∈ keys r ↔ t ∈ keys x) ∧ (∀ t, total r t = total x t)

theorem dedup_canonical_form {cs : Nat} (hcs : 0 < cs) (x : List Rec) :
    Canonical x (dedup cs x) := by
  unfold dedup mergeAll
  obtain ⟨h1, h2, h3⟩ := foldl_merge2_props ((chunks cs x).map dedupChunk) []
    List.Pairwise.nil
    (by
      intro c hc
      obtain ⟨d, _, rfl⟩ := List.mem_map.mp hc
      exact dedupChunk_sorted d)
  refine ⟨h1, fun t => ?_, fun t => ?_⟩
  · rw [h3 t]
    have hkx : t ∈ keys x ↔ ∃ c ∈ chunks cs x, t ∈ keys c := by
      rw [← chunks_flatten hcs x, mem_keys_flatten]
      rw [chunks_flatten hcs x]
    rw [hkx]
    simp only [keys, List.map, List.not_mem_nil, false_or]
    constructor
    · rintro ⟨c, hc, hm⟩
      obtain ⟨d, hd, rfl⟩ := List.mem_map.mp hc
      exact ⟨d, hd, (mem_keys_dedupChunk d).mp hm⟩
    · rintro ⟨d, hd, hm⟩
      exact ⟨dedupChunk d, List.mem_map.mpr ⟨d, hd, rfl⟩, (mem_keys_dedupChunk d).mpr hm⟩
  · rw [h2 t]
    have hx : total x t = ((chunks cs x).map fun c => total c t).sum := by
      rw [← total_flatten, chunks_flatten hcs x]
    rw [hx, total_nil, zero_add, List.map_map]
    congr 1
    apply List.map_congr_left
    intro c _
    exact total_dedupChunk c

theorem strictSorted_eq_of_keys_total : ∀ {r₁ r₂ : List Rec},
    StrictSorted r₁ → StrictSorted r₂ →
    (∀ t, t ∈ keys r₁ ↔ t ∈ keys r₂) → (∀ t, total r₁ t = total r₂ t) →
    r₁ = r₂ := by
  intro r₁
  induction r₁ with
  | nil =>
    intro r₂ _ _ hk _
    match r₂ with
    | [] => rfl
    | b :: bs =>
      exact absurd ((hk b.1).mpr (by simp [keys_cons])) (by simp [keys])
  | cons a as ih =>
    intro r₂ h₁ h₂ hk hv
    match r₂ with
    | [] =>
      exact absurd ((hk a.1).mp (by simp [keys_cons])) (by simp [keys])
    | b :: bs =>
      unfold StrictSorted at h₁ h₂
      obtain ⟨ha, has⟩ := List.pairwise_cons.mp h₁
      obtain ⟨hb, hbs⟩ := List.pairwise_cons.mp h₂
      have hanotas : a.1 ∉ keys as := by
        intro hm
        obtain ⟨v, hv', hve⟩ := mem_keys.mp hm
        have := ha v hv'
        rw [hve, lexLt_irrefl] at this
        exact absurd this (by simp)
      have hbnotbs : b.1 ∉ keys bs := by
        intro hm
        obtain ⟨v, hv', hve⟩ := mem_keys.mp hm
        have := hb v hv'
        rw [hve, lexLt_irrefl] at this
        exact absurd this (by simp)
      have hkey : a.1 = b.1 := by
        have hma : a.1 ∈ keys (b :: bs) := (hk a.1).mp (by simp [keys_cons])
        have hmb : b.1 ∈ keys (a :: as) := (hk b.1).mpr (by simp [keys_cons])
        rcases List.mem_cons.mp hma with he | hma'
        · exact he
        · rcases List.mem_cons.mp hmb with he | hmb'
          · exact he.symm
          · obtain ⟨v, hv', hve⟩ := mem_keys.mp hma'
            obtain ⟨w, hw', hwe⟩ := mem_keys.mp hmb'
            have h1 : lexLt b.1 a.1 = true := by rw [← hve]; exact hb v hv'
            have h2 : lexLt a.1 b.1 = true := by rw [← hwe]; exact ha w hw'
            have := lexLt_trans h1 h2
            rw [lexLt_irrefl] at this
            exact absurd this (by simp)
      have hval : a.2 = b.2 := by
        have h1 := hv a.1
        rw [total_cons, total_cons] at h1
        rw [total_eq_zero_of_not_mem hanotas, if_pos rfl] at h1
        rw [hkey] at h1
        rw [total_eq_zero_of_not_mem hbnotbs, if_pos rfl] at h1
        omega
      have htail : as = bs := by
        apply ih has hbs
        · intro t
          by_cases ht : t = a.1
          · subst ht
            constructor
            · intro hm; exact absurd hm hanotas
            · intro hm; rw [hkey] at hm; exact absurd hm hbnotbs
          · have := hk t
            simp only [keys_cons, List.mem_cons] at this
            rw [← hkey] at this
            tauto
        · intro t
          by_cases ht : t = a.1
          · subst ht
            rw [total_eq_zero_of_not_mem hanotas,
              total_eq_zero_of_not_mem (by rw [hkey]; exact hbnotbs)]
          · have := hv t
            rw [total_cons, total_cons, if_neg (fun he => ht he.symm),
              if_neg (by rw [← hkey]; exact fun he => ht he.symm)] at this
            omega
      have hab : a = b := by
        cases a; cases b
        simp only [Prod.mk.injEq]
        exact ⟨hkey, hval⟩
      rw [hab, htail]

theorem scatter_from {t : List Nat} : ∀ (recs : List Rec) (A : List Nat → ℤ),
    (recs.foldl (fun B r => fun u => if u = r.1 then B u + r.2 else B u) A) t
      = A t + total recs t := by
  intro recs
  induction recs with
  | nil => intro A; rw [List.foldl_nil, total_nil, add_zero]
  | cons r l ih =>
    intro A
    rw [List.foldl_cons, ih, total_cons]
    by_cases ht : t = r.1
    · rw [if_pos ht, if_pos ht.symm]; ring
    · rw [if_neg ht, if_neg (fun he => ht he.symm)]; ring

theorem scatter_eq_total (recs : List Rec) (t : List Nat) :
    scatter recs t = total recs t := by
  unfold scatter
  rw [scatter_from recs (fun _ => 0), zero_add]

theorem total_of_mem_strictSorted : ∀ {l : List Rec}, StrictSorted l →
    ∀ {r : Rec}, r ∈ l → total l r.1 = r.2 := by
  intro l
  induction l with
  | nil => intro _ r hr; exact absurd hr (List.not_mem_nil r)
  | cons a as ih =>
    intro hs r hr
    unfold StrictSorted at hs
    obtain ⟨ha, has⟩ := List.pairwise_cons.mp hs
    rcases List.mem_cons.mp hr with rfl | hr'
    · rw [total_cons, if_pos rfl]
      have hnot : r.1 ∉ keys as := by
        intro hm
        obtain ⟨v, hv, hve⟩ := mem_keys.mp hm
        have := ha v hv
        rw [hve, lexLt_irrefl] at this
        exact absurd this (by simp)
      rw [total_eq_zero_of_not_mem hnot, add_zero]
    · rw [total_cons, if_neg, ih has hr', zero_add]
      intro he
      have := ha r hr'
      rw [← he, lexLt_irrefl] at this
      exact absurd this (by simp)

theorem keys_nodup_of_strictSorted {l : List Rec} (h : StrictSorted l) :
    (keys l).Nodup := by
  unfold keys
  induction l with
  | nil => exact List.nodup_nil
  | cons a as ih =>
    unfold StrictSorted at h
    obtain ⟨ha, has⟩ := List.pairwise_cons.mp h
    rw [List.map_cons, List.nodup_cons]
    refine ⟨?_, ih has⟩
    intro hm
    obtain ⟨v, hv, hve⟩ := List.mem_map.mp hm
    have := ha v hv
    rw [hve, lexLt_irrefl] at this
    exact absurd this (by simp)

theorem flatten_filter (p : Rec → Bool) : ∀ (ls : List (List Rec)),
    (ls.map (List.filter p)).flatten = ls.flatten.filter p := by
  intro ls
  induction ls with
  | nil => rfl
  | cons c cs ih =>
    rw [List.map_cons, List.flatten_cons, List.flatten_cons, List.filter_append, ih]

theorem prune_eq_filter {cs : Nat} (hcs : 0 < cs) (x : List Rec) :
    prune cs x = x.filter fun r => r.2 ≠ 0 := by
  unfold prune
  rw [flatten_filter, chunks_flatten hcs]

theorem foldl_promote_float : ∀ (ks : List Kind) (k : Kind),
    ks.foldl Kind.promote k = Kind.float ↔ (k = Kind.float ∨ Kind.float ∈ ks) := by
  intro ks
  induction ks with
  | nil => intro k; simp
  | cons a as ih =>
    intro k
    rw [List.foldl_cons, ih]
    cases k <;> cases a <;> simp [Kind.promote]

/-- C1: for every record sequence and positive chunksize, `dedup` is
strictly ascending in lexicographic order of the index tuple (axis 0 most
significant), contains exactly one record per distinct index tuple
occurring in the input (zero-valued sums retained, since every input
index tuple stays present), and each output value is the sum of the
values of all input records with that index tuple. -/
theorem dedup_sorted_unique_sums (cs : Nat) (hcs : 0 < cs) (x : List Rec) :
    StrictSorted (dedup cs x) ∧
    (keys (dedup cs x)).Nodup ∧
    (∀ t, t ∈ keys (dedup cs x) ↔ t ∈ keys x) ∧
    (∀ r ∈ dedup cs x, r.2 = total x r.1) := by
  obtain ⟨h1, h2, h3⟩ := dedup_canonical_form hcs x
  refine ⟨h1, keys_nodup_of_strictSorted h1, h2, fun r hr => ?_⟩
  rw [← h3 r.1]
  exact (total_of_mem_strictSorted h1 hr).symm

/-- Witness for C1 at the `vector` test fixture with chunksize 3. -/
theorem dedup_sorted_unique_sums_witness :
    StrictSorted (dedup 3 testVec.data) ∧
    (keys (dedup 3 testVec.data)).Nodup ∧
    (∀ t, t ∈ keys (dedup 3 testVec.data) ↔ t ∈ keys testVec.data) ∧
    (∀ r ∈ dedup 3 testVec.data, r.2 = total testVec.data r.1) :=
  dedup_sorted_unique_sums 3 (by decide) testVec.data

/-- C2: for every record sequence and any two positive chunksize settings,
`dedup` produces identical results, and the total mapped to each index
tuple equals the sum of all contributions in the input regardless of
chunk boundaries. -/
theorem dedup_chunksize_invariant (cs₁ cs₂ : Nat) (h₁ : 0 < cs₁)
    (h₂ : 0 < cs₂) (x : List Rec) :
    dedup cs₁ x = dedup cs₂ x ∧
    (∀ t, total (dedup cs₁ x) t = total x t) := by
  obtain ⟨a1, a2, a3⟩ := dedup_canonical_form h₁ x
  obtain ⟨b1, b2, b3⟩ := dedup_canonical_form h₂ x
  exact ⟨strictSorted_eq_of_keys_total a1 b1
    (fun t => (a2 t).trans (b2 t).symm) (fun t => (a3 t).trans (b3 t).symm), a3⟩

/-- Witness for C2: multi-chunk execution (chunksize 3, forcing three
chunks on nine records) agrees with single-chunk execution (chunksize
100). -/
theorem dedup_chunksize_invariant_witness :
    dedup 3 testVec.data = dedup 100 testVec.data ∧
    (∀ t, total (dedup 3 testVec.data) t = total testVec.data t) :=
  dedup_chunksize_invariant 3 100 (by decide) (by decide) testVec.data

/-- C10: applying `dedup` twice gives the same result as applying it
once. -/
theorem dedup_idempotent (cs : Nat) (hcs : 0 < cs) (x : List Rec) :
    dedup cs (dedup cs x) = dedup cs x := by
  obtain ⟨a1, _, a3⟩ := dedup_canonical_form hcs x
  obtain ⟨b1, b2, b3⟩ := dedup_canonical_form hcs (dedup cs x)
  exact strictSorted_eq_of_keys_total b1 a1 b2 b3

/-- Witness for C10 at the `vector` test fixture with chunksize 3. -/
theorem dedup_idempotent_witness :
    dedup 3 (dedup 3 testVec.data) = dedup 3 testVec.data :=
  dedup_idempotent 3 (by decide) testVec.data

/-- C3: every cell of `toarray` equals the sum of the values of all
records addressing that cell, cells addressed by no record hold zero, and
the rank-1 test fixture of extent 5 densifies to `[60, 40, 80, 0, 30]`. -/
theorem toarray_cells_sum :
    (∀ (s : SparseSeq) (t : List Nat), toarray s t = total s.data t) ∧
    (∀ (s : SparseSeq) (t : List Nat), t ∉ keys s.data → toarray s t = 0) ∧
    toList1 testVec = [60, 40, 80, 0, 30] := by
  refine ⟨fun s t => scatter_eq_total s.data t, fun s t ht => ?_, by decide⟩
  show scatter s.data t = 0
  rw [scatter_eq_total s.data t]
  exact total_eq_zero_of_not_mem ht

/-- Witness for C3: the cell `[7]` is addressed by no record of the test
fixture and holds zero. -/
theorem toarray_cells_sum_witness : toarray testVec [7] = 0 :=
  toarray_cells_sum.2.1 testVec [7] (by decide)

/-- C5: `prune` is the order-preserving subsequence of exactly the
records with non-zero value; records with equal index tuples are not
merged, each being retained individually (counts preserved). -/
theorem prune_filters_zeros (cs : Nat) (hcs : 0 < cs) (x : List Rec) :
    (prune cs x).Sublist x ∧
    prune cs x = (x.filter fun r => r.2 ≠ 0) ∧
    (∀ r ∈ prune cs x, r.2 ≠ 0) ∧
    (∀ r : Rec, r.2 ≠ 0 → (prune cs x).count r = x.count r) := by
  have hf := prune_eq_filter hcs x
  refine ⟨hf ▸ List.filter_sublist x, hf, ?_, ?_⟩
  · intro r hr
    rw [hf] at hr
    have := List.of_mem_filter hr
    simpa using this
  · intro r hr
    rw [hf]
    exact List.count_filter (by simpa using hr)

/-- Witness for C5 at the `vector` test fixture with chunksize 3; the two
cancelling records at index `[3]` are both retained. -/
theorem prune_filters_zeros_witness :
    (prune 3 testVec.data).Sublist testVec.data ∧
    prune 3 testVec.data = (testVec.data.filter fun r => r.2 ≠ 0) ∧
    (∀ r ∈ prune 3 testVec.data, r.2 ≠ 0) ∧
    (∀ r : Rec, r.2 ≠ 0 → (prune 3 testVec.data).count r = testVec.data.count r) :=
  prune_filters_zeros 3 (by decide) testVec.data

/-- C4: for input sequences sharing one declared shape, `add` returns the
literal concatenation of all input records in input order (length = sum
of input lengths, no summing or reordering), with the value kind
promoted to the most general kind among the inputs: any floating-point
input forces a floating-point output. -/
theorem add_concatenation_promotion (s0 : SparseSeq) (rest : List SparseSeq)
    (hsh : ∀ s ∈ rest, s.shape = s0.shape) :
    ∃ out, add (s0 :: rest) = Except.ok out ∧
      out.data = ((s0 :: rest).map SparseSeq.data).flatten ∧
      out.data.length = ((s0 :: rest).map fun s => s.data.length).sum ∧
      out.shape = s0.shape ∧
      (out.kind = Kind.float ↔ Kind.float ∈ (s0 :: rest).map SparseSeq.kind) := by
  have hc : (rest.all fun s => s.shape = s0.shape) = true := by
    rw [List.all_eq_true]
    intro s hs
    simpa using hsh s hs
  have hadd : add (s0 :: rest) = Except.ok
      ⟨s0.shape, (rest.map SparseSeq.kind).foldl Kind.promote s0.kind,
        ((s0 :: rest).map SparseSeq.data).flatten⟩ := by
    unfold add
    dsimp only
    rw [if_pos hc]
  refine ⟨_, hadd, rfl, ?_, rfl, ?_⟩
  · rw [List.length_flatten, List.map_map]
    rfl
  · show (rest.map SparseSeq.kind).foldl Kind.promote s0.kind = Kind.float ↔ _
    rw [foldl_promote_float, List.map_cons, List.mem_cons]
    constructor
    · rintro (he | hm)
      · exact Or.inl he.symm
      · exact Or.inr hm
    · rintro (he | hm)
      · exact Or.inl he.symm
      · exact Or.inr hm

/-- Witness for C4: concatenating the integer-kind test fixture with a
floating-point-kind sequence of the same shape. -/
theorem add_concatenation_promotion_witness :
    ∃ out, add [testVec, otherVecFloat] = Except.ok out ∧
      out.data = ([testVec, otherVecFloat].map SparseSeq.data).flatten ∧
      out.data.length = ([testVec, otherVecFloat].map fun s => s.data.length).sum ∧
      out.shape = testVec.shape ∧
      (out.kind = Kind.float ↔ Kind.float ∈ [testVec, otherVecFloat].map SparseSeq.kind) :=
  add_concatenation_promotion testVec [otherVecFloat] (by decide)

/-- C6: `convert` returns the dense array `toarray` for rank at most 1,
the opaque backend matrix `tomatrix` for rank exactly 2, and fails with
an explicit error for rank greater than 2. -/
theorem convert_dispatch (s : SparseSeq) :
    (s.ndim ≤ 1 → convert s = Except.ok (Converted.array (toarray s))) ∧
    (s.ndim = 2 → convert s = Except.ok (Converted.matrix (tomatrix s))) ∧
    (2 < s.ndim → convert s = Except.error "convert: rank unsupported") := by
  refine ⟨fun h => ?_, fun h => ?_, fun h => ?_⟩
  · unfold convert
    rw [if_pos h]
  · unfold convert
    rw [if_neg (by omega), if_pos h]
  · unfold convert
    rw [if_neg (by omega), if_neg (by omega)]

/-- Witness for C6 at ranks 1, 2 and 3. -/
theorem convert_dispatch_witness :
    convert testVec = Except.ok (Converted.array (toarray testVec)) ∧
    convert testMat = Except.ok (Converted.matrix (tomatrix testMat)) ∧
    convert testCube = Except.error "convert: rank unsupported" :=
  ⟨(convert_dispatch testVec).1 (by decide),
   (convert_dispatch testMat).2.1 (by decide),
   (convert_dispatch testCube).2.2 (by decide)⟩

/-- C7: `add` fails with a shape-mismatch error exactly when its input
sequences do not all share an identical declared shape, and succeeds
(with no error, hence no partial result) when they do. -/
theorem add_shape_mismatch_iff (s0 : SparseSeq) (rest : List SparseSeq) :
    ((∃ e, add (s0 :: rest) = Except.error e) ↔
      ¬ ∀ s ∈ rest, s.shape = s0.shape) ∧
    ((∀ s ∈ rest, s.shape = s0.shape) →
      ∃ out, add (s0 :: rest) = Except.ok out) := by
  by_cases hc : ∀ s ∈ rest, s.shape = s0.shape
  · have hcb : (rest.all fun s => s.shape = s0.shape) = true := by
      rw [List.all_eq_true]
      intro s hs
      simpa using hc s hs
    have hadd : add (s0 :: rest) = Except.ok
        ⟨s0.shape, (rest.map SparseSeq.kind).foldl Kind.promote s0.kind,
          ((s0 :: rest).map SparseSeq.data).flatten⟩ := by
      unfold add
      dsimp only
      rw [if_pos hcb]
    refine ⟨⟨?_, fun h => absurd hc h⟩, fun _ => ⟨_, hadd⟩⟩
    rintro ⟨e, he⟩
    rw [hadd] at he
    exact absurd he (by simp)
  · have hcb : ¬ (rest.all fun s => s.shape = s0.shape) = true := by
      rw [List.all_eq_true]
      intro hall
      exact hc fun s hs => by simpa using hall s hs
    have hadd : add (s0 :: rest) = Except.error "add: shape mismatch" := by
      unfold add
      dsimp only
      rw [if_neg hcb]
    exact ⟨⟨fun _ => hc, fun _ => ⟨_, hadd⟩⟩, fun h => absurd h hc⟩

/-- Witness for C7: a mismatched pair fails, a matching pair succeeds. -/
theorem add_shape_mismatch_iff_witness :
    (∃ e, add [testVec, testMat] = Except.error e) ∧
    (∃ out, add [testVec, otherVecInt] = Except.ok out) :=
  ⟨(add_shape_mismatch_iff testVec [testMat]).1.mpr (by decide),
   (add_shape_mismatch_iff testVec [otherVecInt]).2 (by decide)⟩

/-- C8: for a rank-2 sequence, `tomatrix` hands the backend exactly the
per-axis index arrays and the value array of `extract` — record for
record, without deduplicating — and the handle's dense export agrees
with `toarray` on every cell: the backend accumulates duplicate index
pairs exactly as `toarray` does. -/
theorem tomatrix_mirrors_toarray (s : SparseSeq) (h2 : s.ndim = 2)
    (hlen : ∀ r ∈ s.data, r.1.length = 2) :
    (tomatrix s).rows = indicesAxis s 0 ∧
    (tomatrix s).cols = indicesAxis s 1 ∧
    (tomatrix s).vals = s.data.map Prod.snd ∧
    (∀ i j, (tomatrix s).exportDense i j = toarray s [i, j]) := by
  have hrange : List.range s.ndim = [0, 1] := by rw [h2]; rfl
  have hrows : (tomatrix s).rows = indicesAxis s 0 := by
    show ((List.range s.ndim).map (indicesAxis s)).getD 0 [] = indicesAxis s 0
    rw [hrange]
    rfl
  have hcols : (tomatrix s).cols = indicesAxis s 1 := by
    show ((List.range s.ndim).map (indicesAxis s)).getD 1 [] = indicesAxis s 1
    rw [hrange]
    rfl
  refine ⟨hrows, hcols, rfl, fun i j => ?_⟩
  show (((((tomatrix s).rows.zip (tomatrix s).cols).zip (tomatrix s).vals).filter
      fun p => p.1 = (i, j)).map Prod.snd).sum = toarray s [i, j]
  rw [hrows, hcols, show (tomatrix s).vals = s.data.map Prod.snd from rfl]
  unfold indicesAxis
  rw [List.zip_map', List.zip_map', List.filter_map, List.map_map]
  rw [show toarray s [i, j] = total s.data [i, j] from scatter_eq_total s.data [i, j]]
  unfold total
  have hfil : s.data.filter
      ((fun p : (Nat × Nat) × ℤ => decide (p.1 = (i, j))) ∘
        fun r : Rec => ((r.1.getD 0 0, r.1.getD 1 0), r.2)) =
      s.data.filter fun r : Rec => decide (r.1 = [i, j]) := by
    apply List.filter_congr
    intro r hr
    obtain ⟨a, b, hab⟩ := List.length_eq_two.mp (hlen r hr)
    simp only [Function.comp_apply, hab]
    rw [decide_eq_decide]
    simp
  rw [hfil]
  rfl

/-- Witness for C8 at the rank-2 `matrix` test fixture. -/
theorem tomatrix_mirrors_toarray_witness :
    (tomatrix testMat).rows = indicesAxis testMat 0 ∧
    (tomatrix testMat).cols = indicesAxis testMat 1 ∧
    (tomatrix testMat).vals = testMat.data.map Prod.snd ∧
    (∀ i j, (tomatrix testMat).exportDense i j = toarray testMat [i, j]) :=
  tomatrix_mirrors_toarray testMat (by decide) (by decide)

end Sparse
